import Mathlib

/-!
Verification of the technical-indicator engine of a browser trading terminal.

The indicator module is a set of pure functions from an ordered list of
OHLCV bars to derived series (SMA, EMA, RSI, MACD, Bollinger bands, VWAP
with deviation bands, CVD, delta bars, and a synthetic footprint
decomposition).  The functions below are a shallow embedding of that
module: JavaScript numbers are modelled by ℚ, imperative loops by
structural recursion with explicit accumulators, `Math.sqrt` by an
arbitrary function parameter `f : ℚ → ℚ` (none of the verified
properties depend on the concrete square root), and `Math.random` by an
explicit stream `rand : ℕ → ℚ` consumed one value per call, with the
contract `0 ≤ rand k < 1`.
-/

/-- Total list indexing with an explicit default, mirroring `array[i]`
access inside loops whose bounds keep the index in range. -/
def nth {α : Type} (l : List α) (i : ℕ) (d : α) : α :=
  match l, i with
  | [], _ => d
  | a :: _, 0 => a
  | _ :: t, i + 1 => nth t i d

/-- The index sequence of a counting loop: `s, s+1, ..., s+n-1`. -/
def rangeList (s n : ℕ) : List ℕ :=
  match n with
  | 0 => []
  | n + 1 => s :: rangeList (s + 1) n

/-- One OHLCV bar, the input unit of every indicator. -/
structure CandleData where
  time : ℤ
  open_ : ℚ
  high : ℚ
  low : ℚ
  close : ℚ
  volume : ℚ

/-- One derived point of a single-valued indicator. -/
structure IndicatorData where
  time : ℤ
  value : ℚ

/-- One MACD point. -/
structure MACDData where
  time : ℤ
  macd : ℚ
  signal : ℚ
  histogram : ℚ

/-- One Bollinger-band point. -/
structure BollingerBandData where
  time : ℤ
  upper : ℚ
  middle : ℚ
  lower : ℚ

/-- One VWAP point with deviation bands. -/
structure VWAPData where
  time : ℤ
  vwap : ℚ
  upperBand1 : ℚ
  lowerBand1 : ℚ
  upperBand2 : ℚ
  lowerBand2 : ℚ

/-- One cumulative-volume-delta point. -/
structure CVDData where
  time : ℤ
  cvd : ℚ
  delta : ℚ

/-- Imbalance classification of one footprint bin. -/
inductive Imbalance where
  | bid
  | ask
  | neutral
  deriving DecidableEq

/-- One price bin of a footprint bar. -/
structure FootprintLevel where
  price : ℚ
  bidVolume : ℚ
  askVolume : ℚ
  delta : ℚ
  imbalance : Imbalance

/-- One footprint bar: its bins plus bar-level aggregates. -/
structure FootprintCandle where
  time : ℤ
  levels : List FootprintLevel
  totalBidVolume : ℚ
  totalAskVolume : ℚ
  totalDelta : ℚ
  pocPrice : ℚ

/-- Default bar used as the out-of-range value of `nth`. -/
def noCandle : CandleData := ⟨0, 0, 0, 0, 0, 0⟩

/-- Default indicator point used as the out-of-range value of `nth`. -/
def noPoint : IndicatorData := ⟨0, 0⟩

/-- Default MACD point used as the out-of-range value of `nth`. -/
def noMACD : MACDData := ⟨0, 0, 0, 0⟩

/-- Default Bollinger point used as the out-of-range value of `nth`. -/
def noBB : BollingerBandData := ⟨0, 0, 0, 0⟩

/-- Default VWAP point used as the out-of-range value of `nth`. -/
def noVWAP : VWAPData := ⟨0, 0, 0, 0, 0, 0⟩

/-- Default CVD point used as the out-of-range value of `nth`. -/
def noCVD : CVDData := ⟨0, 0, 0⟩

/-- Default footprint level used as the out-of-range value of `nth`. -/
def noLevel : FootprintLevel := ⟨0, 0, 0, 0, Imbalance.neutral⟩

/-- Default footprint bar used as the out-of-range value of `nth`. -/
def noFootprint : FootprintCandle := ⟨0, [], 0, 0, 0, 0⟩

/-- Simple moving average: one point per index `i ≥ period-1`, value the
mean of the last `period` closes, empty when there are too few bars. -/
def calculateSMA (candles : List CandleData) (period : ℕ) : List IndicatorData :=
  if candles.length < period then []
  else
    (rangeList (period - 1) (candles.length - (period - 1))).map (fun i =>
      { time := (nth candles i noCandle).time
        value := (∑ j in Finset.range period, (nth candles (i - j) noCandle).close) / period })

/-- The EMA recurrence loop: one output point per remaining bar, carrying
the previous EMA value. -/
def emaGo (m : ℚ) : List CandleData → ℚ → List IndicatorData
  | [], _ => []
  | c :: cs, ema =>
    let e := (c.close - ema) * m + ema
    ⟨c.time, e⟩ :: emaGo m cs e

/-- Exponential moving average: seeded with the SMA of the first `period`
closes, then the standard recurrence with factor `2/(period+1)`. -/
def calculateEMA (candles : List CandleData) (period : ℕ) : List IndicatorData :=
  if candles.length < period then []
  else
    let m := 2 / ((period : ℚ) + 1)
    let ema0 := (∑ j in Finset.range period, (nth candles j noCandle).close) / period
    ⟨(nth candles (period - 1) noCandle).time, ema0⟩ :: emaGo m (candles.drop period) ema0

/-- Closes of a bar sequence. -/
def closesOf (candles : List CandleData) : List ℚ :=
  candles.map (fun c => c.close)

/-- Consecutive differences of a list of closes. -/
def changesOf : List ℚ → List ℚ
  | a :: b :: t => (b - a) :: changesOf (b :: t)
  | _ => []

/-- Per-bar gains: the positive part of each consecutive close change. -/
def gainsOf (candles : List CandleData) : List ℚ :=
  (changesOf (closesOf candles)).map (fun ch => if 0 < ch then ch else 0)

/-- Per-bar losses: the absolute value of each negative close change. -/
def lossesOf (candles : List CandleData) : List ℚ :=
  (changesOf (closesOf candles)).map (fun ch => if ch < 0 then |ch| else 0)

/-- The Wilder-smoothing loop of the RSI: consumes triples of
(gain, loss, emit time), carrying the smoothed averages. -/
def rsiGo (period : ℕ) : List (ℚ × ℚ × ℤ) → ℚ → ℚ → List IndicatorData
  | [], _, _ => []
  | (g, l, t) :: rest, aG, aL =>
    let aG2 := (aG * ((period : ℚ) - 1) + g) / period
    let aL2 := (aL * ((period : ℚ) - 1) + l) / period
    let rs := if aL2 = 0 then 100 else aG2 / aL2
    ⟨t, 100 - 100 / (1 + rs)⟩ :: rsiGo period rest aG2 aL2

/-- Relative strength index with the `RS = 100` rule when the average
loss is zero; first point at `candles[period].time`. -/
def calculateRSI (candles : List CandleData) (period : ℕ) : List IndicatorData :=
  if candles.length < period + 1 then []
  else
    let gains := gainsOf candles
    let losses := lossesOf candles
    let avgGain := (gains.take period).sum / period
    let avgLoss := (losses.take period).sum / period
    let rs := if avgLoss = 0 then 100 else avgGain / avgLoss
    ⟨(nth candles period noCandle).time, 100 - 100 / (1 + rs)⟩ ::
      rsiGo period
        ((gains.drop period).zip ((losses.drop period).zip
          ((candles.drop (period + 1)).map (fun c => c.time))))
        avgGain avgLoss

/-- The signal-line loop of the MACD: carries the signal EMA and emits
`histogram` as the direct subtraction of the fields of the point itself. -/
def macdGo (m : ℚ) : List IndicatorData → ℚ → List MACDData
  | [], _ => []
  | d :: ds, sig =>
    let s := (d.value - sig) * m + sig
    ⟨d.time, d.value, s, d.value - s⟩ :: macdGo m ds s

/-- MACD: fast EMA minus slow EMA aligned by the `slowPeriod - fastPeriod`
index offset, signal line an SMA-seeded EMA of the MACD line. -/
def calculateMACD (candles : List CandleData) (fastPeriod slowPeriod signalPeriod : ℕ) :
    List MACDData :=
  if candles.length < slowPeriod + signalPeriod then []
  else
    let fastEMA := calculateEMA candles fastPeriod
    let slowEMA := calculateEMA candles slowPeriod
    let slowStartIndex : ℤ := (slowPeriod : ℤ) - (fastPeriod : ℤ)
    let macdLine : List IndicatorData :=
      (rangeList 0 slowEMA.length).filterMap (fun (i : ℕ) =>
        let fastIndex : ℤ := (i : ℤ) + slowStartIndex
        if 0 ≤ fastIndex ∧ fastIndex < (fastEMA.length : ℤ) then
          some ⟨(nth slowEMA i noPoint).time,
                (nth fastEMA fastIndex.toNat noPoint).value - (nth slowEMA i noPoint).value⟩
        else none)
    if macdLine.length < signalPeriod then []
    else
      let m := 2 / ((signalPeriod : ℚ) + 1)
      let signal0 := (∑ j in Finset.range signalPeriod, (nth macdLine j noPoint).value) / signalPeriod
      ⟨(nth macdLine (signalPeriod - 1) noPoint).time,
       (nth macdLine (signalPeriod - 1) noPoint).value,
       signal0,
       (nth macdLine (signalPeriod - 1) noPoint).value - signal0⟩ ::
        macdGo m (macdLine.drop signalPeriod) signal0

/-- Bollinger bands: windowed SMA plus/minus `stdDev` times the square
root of the population variance of the window; `f` stands for the square
root function. -/
def calculateBollingerBands (f : ℚ → ℚ) (candles : List CandleData) (period : ℕ)
    (stdDev : ℚ) : List BollingerBandData :=
  if candles.length < period then []
  else
    (rangeList (period - 1) (candles.length - (period - 1))).map (fun i =>
      let sma := (∑ j in Finset.range period, (nth candles (i - j) noCandle).close) / period
      let squaredDiffSum :=
        ∑ j in Finset.range period, ((nth candles (i - j) noCandle).close - sma) ^ 2
      let std := f (squaredDiffSum / period)
      { time := (nth candles i noCandle).time
        upper := sma + stdDev * std
        middle := sma
        lower := sma - stdDev * std })

/-- Typical price of a bar. -/
def typicalPrice (c : CandleData) : ℚ :=
  (c.high + c.low + c.close) / 3

/-- The VWAP loop: carries the list of pushed squared deviations and the
cumulative typical-price-volume and volume sums; `f` stands for the
square root function. -/
def vwapGo (f : ℚ → ℚ) : List CandleData → List ℚ → ℚ → ℚ → List VWAPData
  | [], _, _, _ => []
  | c :: cs, squaredDeviations, cumulativeTPV, cumulativeVolume =>
    let tp := typicalPrice c
    let cumulativeTPV2 := cumulativeTPV + tp * c.volume
    let cumulativeVolume2 := cumulativeVolume + c.volume
    let vwap := if 0 < cumulativeVolume2 then cumulativeTPV2 / cumulativeVolume2 else tp
    let squaredDeviations2 := squaredDeviations ++ [(tp - vwap) ^ 2 * c.volume]
    let sumSquaredDev := squaredDeviations2.sum
    let variance := if 0 < cumulativeVolume2 then sumSquaredDev / cumulativeVolume2 else 0
    let stdDev := f variance
    ⟨c.time, vwap, vwap + stdDev, vwap - stdDev, vwap + 2 * stdDev, vwap - 2 * stdDev⟩ ::
      vwapGo f cs squaredDeviations2 cumulativeTPV2 cumulativeVolume2

/-- VWAP with deviation bands, cumulative from the start of the sequence;
`f` stands for the square root function. -/
def calculateVWAP (f : ℚ → ℚ) (candles : List CandleData) : List VWAPData :=
  if candles.length = 0 then [] else vwapGo f candles [] 0 0

/-- Cumulative volume of the bars up to index `i` inclusive. -/
def cumVolume : List CandleData → ℕ → ℚ
  | [], _ => 0
  | c :: _, 0 => c.volume
  | c :: cs, i + 1 => c.volume + cumVolume cs i

/-- Cumulative typical-price times volume of the bars up to index `i`. -/
def cumTPV : List CandleData → ℕ → ℚ
  | [], _ => 0
  | c :: _, 0 => typicalPrice c * c.volume
  | c :: cs, i + 1 => typicalPrice c * c.volume + cumTPV cs i

/-- The vwap value produced while processing one bar, given the sums
accumulated before that bar. -/
def vwStep (cumulativeTPV cumulativeVolume : ℚ) (c : CandleData) : ℚ :=
  if 0 < cumulativeVolume + c.volume then
    (cumulativeTPV + typicalPrice c * c.volume) / (cumulativeVolume + c.volume)
  else typicalPrice c

/-- The vwap emitted at index `j` when the loop starts from the given
accumulated sums. -/
def relVwap (cumulativeTPV cumulativeVolume : ℚ) (cs : List CandleData) (j : ℕ) : ℚ :=
  if 0 < cumulativeVolume + cumVolume cs j then
    (cumulativeTPV + cumTPV cs j) / (cumulativeVolume + cumVolume cs j)
  else typicalPrice (nth cs j noCandle)

/-- Sum of the squared deviations pushed up to index `i`, each term frozen
at the vwap that was current when it was pushed. -/
def frozenSqDevSum (cumulativeTPV cumulativeVolume : ℚ) : List CandleData → ℕ → ℚ
  | [], _ => 0
  | c :: _, 0 => (typicalPrice c - vwStep cumulativeTPV cumulativeVolume c) ^ 2 * c.volume
  | c :: cs, i + 1 =>
    (typicalPrice c - vwStep cumulativeTPV cumulativeVolume c) ^ 2 * c.volume +
      frozenSqDevSum (cumulativeTPV + typicalPrice c * c.volume)
        (cumulativeVolume + c.volume) cs i

/-- The variance handed to the square root at index `i`, given the sum of
previously pushed squared deviations and the accumulated sums. -/
def relVar (s0 cumulativeTPV cumulativeVolume : ℚ) (cs : List CandleData) (i : ℕ) : ℚ :=
  if 0 < cumulativeVolume + cumVolume cs i then
    (s0 + frozenSqDevSum cumulativeTPV cumulativeVolume cs i) /
      (cumulativeVolume + cumVolume cs i)
  else 0

/-- The vwap emitted at index `i` of a whole sequence. -/
def vwapAt (candles : List CandleData) (i : ℕ) : ℚ :=
  relVwap 0 0 candles i

/-- Modelled from the spec: the running sum of squared deviations in which
the deviation reference of every historical term already summed is the
current `vwap_i`, as the spec describes the deviation-band recurrence. -/
def claimSumSq (candles : List CandleData) (i : ℕ) : ℚ :=
  ∑ j in Finset.range (i + 1),
    (typicalPrice (nth candles j noCandle) - vwapAt candles i) ^ 2 *
      (nth candles j noCandle).volume

/-- Close position of a bar within its range, `1/2` on a degenerate bar. -/
def closePositionOf (c : CandleData) : ℚ :=
  if c.low < c.high then (c.close - c.low) / (c.high - c.low) else 0.5

/-- Estimated buy volume of a bar. -/
def buyVolumeOf (c : CandleData) : ℚ :=
  c.volume * closePositionOf c

/-- Estimated sell volume of a bar. -/
def sellVolumeOf (c : CandleData) : ℚ :=
  c.volume * (1 - closePositionOf c)

/-- Estimated per-bar delta. -/
def deltaOf (c : CandleData) : ℚ :=
  buyVolumeOf c - sellVolumeOf c

/-- The CVD loop: carries the running delta sum. -/
def cvdGo : List CandleData → ℚ → List CVDData
  | [], _ => []
  | c :: cs, cumulativeDelta =>
    let range := c.high - c.low
    let closePosition := if 0 < range then (c.close - c.low) / range else 0.5
    let buyVolume := c.volume * closePosition
    let sellVolume := c.volume * (1 - closePosition)
    let delta := buyVolume - sellVolume
    ⟨c.time, cumulativeDelta + delta, delta⟩ :: cvdGo cs (cumulativeDelta + delta)

/-- Cumulative volume delta: running sum of per-bar estimated deltas. -/
def calculateCVD (candles : List CandleData) : List CVDData :=
  if candles.length = 0 then [] else cvdGo candles 0

/-- Center price of bin `i` of a bar split into `levels` bins. -/
def levelPriceOf (c : CandleData) (levels i : ℕ) : ℚ :=
  c.low + ((i : ℚ) + 0.5) * ((c.high - c.low) / levels)

/-- Base volume allocated to bin `i`: the even share, weighted 1.5 inside
the candle body and 0.5 outside it. -/
def binBaseVolume (c : CandleData) (levels i : ℕ) : ℚ :=
  if min c.open_ c.close ≤ levelPriceOf c levels i ∧
      levelPriceOf c levels i ≤ max c.open_ c.close then
    c.volume / levels * 1.5
  else c.volume / levels * 0.5

/-- Normalized vertical position of bin `i` within the bar range. -/
def binPositionFactor (c : CandleData) (levels i : ℕ) : ℚ :=
  (levelPriceOf c levels i - c.low) / (c.high - c.low)

/-- Bid fraction of bin `i`, depending on the bar direction. -/
def binBidShare (c : CandleData) (levels i : ℕ) : ℚ :=
  if c.open_ ≤ c.close then 0.35 + binPositionFactor c levels i * 0.15
  else 0.65 - binPositionFactor c levels i * 0.15

/-- Ask fraction of bin `i`, depending on the bar direction. -/
def binAskShare (c : CandleData) (levels i : ℕ) : ℚ :=
  if c.open_ ≤ c.close then 0.65 - binPositionFactor c levels i * 0.15
  else 0.35 + binPositionFactor c levels i * 0.15

/-- One footprint bin, computed from the single random value `r` drawn
for this bin: the shared noise factor `0.9 + r·0.2` multiplies both the
bid and the ask volume. -/
def footprintBin (c : CandleData) (levels i : ℕ) (r : ℚ) : FootprintLevel :=
  let noise := 0.9 + r * 0.2
  let bidVolume := binBaseVolume c levels i * binBidShare c levels i * noise
  let askVolume := binBaseVolume c levels i * binAskShare c levels i * noise
  { price := levelPriceOf c levels i
    bidVolume := bidVolume
    askVolume := askVolume
    delta := askVolume - bidVolume
    imbalance :=
      if bidVolume * 3 < askVolume then Imbalance.ask
      else if askVolume * 3 < bidVolume then Imbalance.bid
      else Imbalance.neutral }

/-- One footprint bar built from draws `rand k, ..., rand (k+levels-1)`,
with totals and the point of control (first maximal bin wins). -/
def footprintBar (rand : ℕ → ℚ) (levels : ℕ) (c : CandleData) (k : ℕ) : FootprintCandle :=
  let lvls := (rangeList 0 levels).map (fun i => footprintBin c levels i (rand (k + i)))
  let totalBid := (lvls.map FootprintLevel.bidVolume).sum
  let totalAsk := (lvls.map FootprintLevel.askVolume).sum
  let poc := (lvls.foldl (fun acc lv =>
      if acc.1 < lv.bidVolume + lv.askVolume then (lv.bidVolume + lv.askVolume, lv.price)
      else acc)
    (0, (c.high + c.low) / 2)).2
  { time := c.time
    levels := lvls
    totalBidVolume := totalBid
    totalAskVolume := totalAsk
    totalDelta := totalAsk - totalBid
    pocPrice := poc }

/-- The footprint loop: skips zero-range bars, consumes `levels` random
draws per emitted bar. -/
def footprintGo (rand : ℕ → ℚ) (levels : ℕ) : List CandleData → ℕ → List FootprintCandle
  | [], _ => []
  | c :: cs, k =>
    if c.high - c.low = 0 then footprintGo rand levels cs k
    else footprintBar rand levels c k :: footprintGo rand levels cs (k + levels)

/-- Footprint decomposition of a bar sequence; `rand` is the stream of
values produced by the random source. -/
def calculateFootprint (rand : ℕ → ℚ) (candles : List CandleData)
    (levelsPerCandle : ℕ) : List FootprintCandle :=
  footprintGo rand levelsPerCandle candles 0

/-- Modelled from the spec: one footprint bin in which the noise factor is
drawn independently for the bid volume (`rBid`) and the ask volume
(`rAsk`), as the words of the spec describe it. -/
def footprintBinIndep (c : CandleData) (levels i : ℕ) (rBid rAsk : ℚ) : FootprintLevel :=
  let bidVolume := binBaseVolume c levels i * binBidShare c levels i * (0.9 + rBid * 0.2)
  let askVolume := binBaseVolume c levels i * binAskShare c levels i * (0.9 + rAsk * 0.2)
  { price := levelPriceOf c levels i
    bidVolume := bidVolume
    askVolume := askVolume
    delta := askVolume - bidVolume
    imbalance :=
      if bidVolume * 3 < askVolume then Imbalance.ask
      else if askVolume * 3 < bidVolume then Imbalance.bid
      else Imbalance.neutral }

/-- Modelled from the spec: a footprint bar whose bins each consume two
independent draws, one for the bid side and one for the ask side. -/
def footprintBarIndep (rand : ℕ → ℚ) (levels : ℕ) (c : CandleData) (k : ℕ) : FootprintCandle :=
  let lvls := (rangeList 0 levels).map (fun i =>
    footprintBinIndep c levels i (rand (k + 2 * i)) (rand (k + 2 * i + 1)))
  let totalBid := (lvls.map FootprintLevel.bidVolume).sum
  let totalAsk := (lvls.map FootprintLevel.askVolume).sum
  let poc := (lvls.foldl (fun acc lv =>
      if acc.1 < lv.bidVolume + lv.askVolume then (lv.bidVolume + lv.askVolume, lv.price)
      else acc)
    (0, (c.high + c.low) / 2)).2
  { time := c.time
    levels := lvls
    totalBidVolume := totalBid
    totalAskVolume := totalAsk
    totalDelta := totalAsk - totalBid
    pocPrice := poc }

/-- Modelled from the spec: the footprint loop with two draws per bin. -/
def footprintGoIndep (rand : ℕ → ℚ) (levels : ℕ) : List CandleData → ℕ → List FootprintCandle
  | [], _ => []
  | c :: cs, k =>
    if c.high - c.low = 0 then footprintGoIndep rand levels cs k
    else footprintBarIndep rand levels c k :: footprintGoIndep rand levels cs (k + 2 * levels)

/-- Modelled from the spec: footprint decomposition in which the noise is
applied independently to the bid and ask volumes of each bin. -/
def calculateFootprintIndep (rand : ℕ → ℚ) (candles : List CandleData)
    (levelsPerCandle : ℕ) : List FootprintCandle :=
  footprintGoIndep rand levelsPerCandle candles 0

/-- The identity function, used as a concrete square-root stand-in when a
statement is evaluated at one input. -/
def idFn : ℚ → ℚ := fun q => q

/-- Concrete random stream used by counterexamples and witnesses. -/
def cexRand : ℕ → ℚ := fun k => if k = 0 then 0 else 1 / 2

/-- Concrete bullish bar with nonzero range. -/
def cexCandle : CandleData := ⟨0, 0, 10, 0, 10, 10⟩

/-- Two concrete bars whose typical prices differ, used to separate the
two readings of the VWAP deviation recurrence. -/
def vwapCexBars : List CandleData := [⟨1, 3, 3, 3, 3, 1⟩, ⟨2, 6, 6, 6, 6, 1⟩]

/-- Concrete single bar with zero volume. -/
def vwapZeroBars : List CandleData := [⟨5, 2, 4, 2, 3, 0⟩]

/-- Concrete three-bar sequence with strictly increasing closes. -/
def wBars3 : List CandleData :=
  [⟨0, 1, 1, 1, 1, 1⟩, ⟨1, 2, 2, 2, 2, 1⟩, ⟨2, 4, 4, 4, 4, 1⟩]

/-- Concrete two-bar sequence, one bar with full range. -/
def wBars2 : List CandleData :=
  [⟨0, 1, 3, 1, 3, 10⟩, ⟨1, 3, 5, 2, 4, 8⟩]

/-- Arithmetic mean of the closes of the `period` bars starting at `i`. -/
def windowMean (candles : List CandleData) (period i : ℕ) : ℚ :=
  (∑ j in Finset.range period, (nth candles (i + j) noCandle).close) / period

/-- Population variance of the closes of the `period` bars starting at
`i`: squared deviations from the window mean divided by `period`. -/
def windowPopVar (candles : List CandleData) (period i : ℕ) : ℚ :=
  (∑ j in Finset.range period,
    ((nth candles (i + j) noCandle).close - windowMean candles period i) ^ 2) / period

theorem rangeList_length : ∀ (s n : ℕ), (rangeList s n).length = n := by
  intro s n
  induction n generalizing s with
  | zero => rfl
  | succ n ih => simp [rangeList, ih]

theorem nth_map_rangeList {α : Type} (f : ℕ → α) (d : α) :
    ∀ (n s k : ℕ), k < n → nth ((rangeList s n).map f) k d = f (s + k) := by
  intro n
  induction n with
  | zero => intro s k hk; omega
  | succ n ih =>
    intro s k hk
    cases k with
    | zero => simp [rangeList, nth]
    | succ k =>
      have : nth ((rangeList (s + 1) n).map f) k d = f (s + 1 + k) := ih (s + 1) k (by omega)
      simp only [rangeList, List.map_cons, nth, this]
      congr 1
      omega

theorem nth_mem {α : Type} : ∀ (l : List α) (i : ℕ) (d : α), i < l.length → nth l i d ∈ l := by
  intro l
  induction l with
  | nil => intro i d h; simp at h
  | cons a t ih =>
    intro i d h
    cases i with
    | zero => simp [nth]
    | succ i =>
      simp only [nth]
      exact List.mem_cons_of_mem a (ih i d (by simpa using h))

theorem nth_drop {α : Type} : ∀ (l : List α) (n i : ℕ) (d : α),
    nth (l.drop n) i d = nth l (n + i) d := by
  intro l
  induction l with
  | nil => intro n i d; simp [nth]
  | cons a t ih =>
    intro n i d
    cases n with
    | zero => simp
    | succ n =>
      have hidx : n + 1 + i = (n + i) + 1 := by omega
      rw [List.drop_succ_cons, hidx]
      simpa [nth] using ih n i d

theorem window_sum_reflect (g : ℕ → ℚ) (P i : ℕ) :
    ∑ j in Finset.range P, g (P - 1 + i - j) = ∑ j in Finset.range P, g (i + j) := by
  rw [← Finset.sum_range_reflect (fun j => g (i + j)) P]
  refine Finset.sum_congr rfl ?_
  intro j hj
  have hjP := Finset.mem_range.mp hj
  congr 1
  omega

/-- C4: for a positive period, `calculateSMA` is empty when there are
fewer bars than the period, otherwise returns exactly `L - P + 1` points,
point `i` carrying the time of bar `P-1+i` and the mean of the closes of
bars `i .. i+P-1`. -/
theorem sma_window_c4 (candles : List CandleData) (period i : ℕ) (hp : 0 < period) :
    (candles.length < period → calculateSMA candles period = [])
    ∧ (period ≤ candles.length →
        (calculateSMA candles period).length = candles.length - period + 1)
    ∧ ∀ _hi : i < (calculateSMA candles period).length,
        (nth (calculateSMA candles period) i noPoint).time
            = (nth candles (period - 1 + i) noCandle).time
        ∧ (nth (calculateSMA candles period) i noPoint).value
            = (∑ j in Finset.range period, (nth candles (i + j) noCandle).close)
                / (period : ℚ) := by
  refine ⟨fun h => by simp [calculateSMA, if_pos h], fun h => ?_, fun hi => ?_⟩
  · have hnl : ¬ candles.length < period := not_lt.mpr h
    simp only [calculateSMA, if_neg hnl, List.length_map, rangeList_length]
    omega
  · by_cases h : candles.length < period
    · simp [calculateSMA, if_pos h] at hi
    · simp only [calculateSMA, if_neg h, List.length_map, rangeList_length] at hi
      simp only [calculateSMA, if_neg h]
      rw [nth_map_rangeList _ _ _ _ _ hi]
      refine ⟨rfl, ?_⟩
      simp only
      congr 1
      have := window_sum_reflect (fun t => (nth candles t noCandle).close) period i
      simpa using this

/-- Witness for C4 at three bars, period 2, index 1. -/
theorem sma_window_c4_witness :
    0 < 2 ∧
    ((wBars3.length < 2 → calculateSMA wBars3 2 = [])
      ∧ (2 ≤ wBars3.length →
          (calculateSMA wBars3 2).length = wBars3.length - 2 + 1)
      ∧ ∀ _hi : 1 < (calculateSMA wBars3 2).length,
          (nth (calculateSMA wBars3 2) 1 noPoint).time
              = (nth wBars3 (2 - 1 + 1) noCandle).time
          ∧ (nth (calculateSMA wBars3 2) 1 noPoint).value
              = (∑ j in Finset.range 2, (nth wBars3 (1 + j) noCandle).close)
                  / ((2 : ℕ) : ℚ)) :=
  ⟨by decide, sma_window_c4 wBars3 2 1 (by decide)⟩

/-- C8: every Bollinger point has `middle` equal to the SMA of its
window, `upper` and `lower` at `middle` plus/minus the multiplier times
the square root of the population variance (divide by `period`), and the
bands are symmetric around the middle. -/
theorem bollinger_bands_c8 (f : ℚ → ℚ) (candles : List CandleData) (period i : ℕ)
    (stdDevMult : ℚ) (hp : 0 < period)
    (hi : i < (calculateBollingerBands f candles period stdDevMult).length) :
    (nth (calculateBollingerBands f candles period stdDevMult) i noBB).middle
        = windowMean candles period i
    ∧ (nth (calculateBollingerBands f candles period stdDevMult) i noBB).upper
        = windowMean candles period i + stdDevMult * f (windowPopVar candles period i)
    ∧ (nth (calculateBollingerBands f candles period stdDevMult) i noBB).lower
        = windowMean candles period i - stdDevMult * f (windowPopVar candles period i)
    ∧ (nth (calculateBollingerBands f candles period stdDevMult) i noBB).upper
          - (nth (calculateBollingerBands f candles period stdDevMult) i noBB).middle
        = (nth (calculateBollingerBands f candles period stdDevMult) i noBB).middle
          - (nth (calculateBollingerBands f candles period stdDevMult) i noBB).lower := by
  by_cases h : candles.length < period
  · simp [calculateBollingerBands, if_pos h] at hi
  · simp only [calculateBollingerBands, if_neg h, List.length_map, rangeList_length] at hi
    simp only [calculateBollingerBands, if_neg h]
    rw [nth_map_rangeList _ _ _ _ _ hi]
    dsimp only
    have hw := window_sum_reflect (fun t => (nth candles t noCandle).close) period i
    have hmid : (∑ j in Finset.range period, (nth candles (period - 1 + i - j) noCandle).close)
        / (period : ℚ) = windowMean candles period i := by
      rw [windowMean, hw]
    have hvar : (∑ j in Finset.range period,
        ((nth candles (period - 1 + i - j) noCandle).close
          - (∑ j in Finset.range period, (nth candles (period - 1 + i - j) noCandle).close)
            / (period : ℚ)) ^ 2) / (period : ℚ)
        = windowPopVar candles period i := by
      rw [hmid, windowPopVar]
      congr 1
      exact window_sum_reflect
        (fun t => ((nth candles t noCandle).close - windowMean candles period i) ^ 2) period i
    refine ⟨hmid, ?_, ?_, by ring⟩
    · rw [hvar, hmid]
    · rw [hvar, hmid]

/-- Witness for C8 at two bars, period 2, index 0, multiplier 3, with the
identity as the square root stand-in. -/
theorem bollinger_bands_c8_witness :
    0 < 2 ∧ 0 < (calculateBollingerBands idFn wBars2 2 3).length ∧
    ((nth (calculateBollingerBands idFn wBars2 2 3) 0 noBB).middle = windowMean wBars2 2 0
      ∧ (nth (calculateBollingerBands idFn wBars2 2 3) 0 noBB).upper
          = windowMean wBars2 2 0 + 3 * idFn (windowPopVar wBars2 2 0)
      ∧ (nth (calculateBollingerBands idFn wBars2 2 3) 0 noBB).lower
          = windowMean wBars2 2 0 - 3 * idFn (windowPopVar wBars2 2 0)
      ∧ (nth (calculateBollingerBands idFn wBars2 2 3) 0 noBB).upper
            - (nth (calculateBollingerBands idFn wBars2 2 3) 0 noBB).middle
          = (nth (calculateBollingerBands idFn wBars2 2 3) 0 noBB).middle
            - (nth (calculateBollingerBands idFn wBars2 2 3) 0 noBB).lower) := by
  have hl : 0 < (calculateBollingerBands idFn wBars2 2 3).length := by
    simp [calculateBollingerBands, wBars2, rangeList]
  exact ⟨by decide, hl, bollinger_bands_c8 idFn wBars2 2 0 3 (by decide) hl⟩

theorem nth_cons_zero {α : Type} (a : α) (t : List α) (d : α) : nth (a :: t) 0 d = a := rfl

theorem nth_cons_succ {α : Type} (a : α) (t : List α) (i : ℕ) (d : α) :
    nth (a :: t) (i + 1) d = nth t i d := rfl

theorem emaGo_length (m : ℚ) : ∀ (cs : List CandleData) (e : ℚ),
    (emaGo m cs e).length = cs.length := by
  intro cs
  induction cs with
  | nil => intro e; rfl
  | cons c cs ih => intro e; simp [emaGo, ih]

theorem emaGo_nth_time (m : ℚ) : ∀ (cs : List CandleData) (e : ℚ) (i : ℕ), i < cs.length →
    (nth (emaGo m cs e) i noPoint).time = (nth cs i noCandle).time := by
  intro cs
  induction cs with
  | nil => intro e i h; simp at h
  | cons c cs ih =>
    intro e i h
    cases i with
    | zero => rfl
    | succ i => simpa [emaGo, nth] using ih _ i (by simpa using h)

theorem emaGo_nth_succ_value (m : ℚ) : ∀ (cs : List CandleData) (e : ℚ) (i : ℕ),
    i + 1 < cs.length →
    (nth (emaGo m cs e) (i + 1) noPoint).value
      = ((nth cs (i + 1) noCandle).close - (nth (emaGo m cs e) i noPoint).value) * m
        + (nth (emaGo m cs e) i noPoint).value := by
  intro cs
  induction cs with
  | nil => intro e i h; simp at h
  | cons c cs ih =>
    intro e i h
    cases i with
    | zero =>
      cases cs with
      | nil => simp at h
      | cons c2 cs2 => simp [emaGo, nth]
    | succ i =>
      have := ih ((c.close - e) * m + e) i (by simpa using h)
      simpa [emaGo, nth] using this

/-- C5: with at least `period` bars, `calculateEMA` emits its first point
at `bars[period-1].time` with value exactly the SMA of the first `period`
closes, and every later point at `bars[period+i].time` satisfies the
recurrence `ema = (close - prev) * (2/(period+1)) + prev`; with fewer
bars the result is empty. -/
theorem ema_seed_recurrence_c5 (candles : List CandleData) (period i : ℕ) (hp : 0 < period) :
    (candles.length < period → calculateEMA candles period = [])
    ∧ (period ≤ candles.length →
        (calculateEMA candles period).length = candles.length - period + 1
        ∧ nth (calculateEMA candles period) 0 noPoint
            = ⟨(nth candles (period - 1) noCandle).time,
               (∑ j in Finset.range period, (nth candles j noCandle).close) / (period : ℚ)⟩)
    ∧ ∀ _hi : i + 1 < (calculateEMA candles period).length,
        (nth (calculateEMA candles period) (i + 1) noPoint).time
            = (nth candles (period + i) noCandle).time
        ∧ (nth (calculateEMA candles period) (i + 1) noPoint).value
            = ((nth candles (period + i) noCandle).close
                - (nth (calculateEMA candles period) i noPoint).value)
                * (2 / ((period : ℚ) + 1))
              + (nth (calculateEMA candles period) i noPoint).value := by
  refine ⟨fun h => by simp [calculateEMA, if_pos h], fun h => ?_, fun hi => ?_⟩
  · have hnl : ¬ candles.length < period := not_lt.mpr h
    refine ⟨?_, ?_⟩
    · simp only [calculateEMA, if_neg hnl, List.length_cons, emaGo_length, List.length_drop]
    · simp [calculateEMA, if_neg hnl, nth]
  · by_cases h : candles.length < period
    · simp [calculateEMA, if_pos h] at hi
    · simp only [calculateEMA, if_neg h, List.length_cons, emaGo_length,
        List.length_drop] at hi
      have hid : i < (candles.drop period).length := by
        simp only [List.length_drop]
        omega
      simp only [calculateEMA, if_neg h]
      constructor
      · rw [nth_cons_succ, emaGo_nth_time _ _ _ i hid, nth_drop]
      · cases i with
        | zero =>
          rcases hdp : candles.drop period with _ | ⟨c, cs⟩
          · rw [hdp] at hid
            simp at hid
          · have hc : nth candles (period + 0) noCandle = c := by
              rw [← nth_drop, hdp, nth_cons_zero]
            rw [hc]
            simp [emaGo, nth]
        | succ k =>
          have hk : k + 1 < (candles.drop period).length := hid
          rw [nth_cons_succ, nth_cons_succ,
            emaGo_nth_succ_value _ _ _ _ hk, nth_drop]

/-- Witness for C5 at three bars, period 2, index 0. -/
theorem ema_seed_recurrence_c5_witness :
    0 < 2 ∧
    ((wBars3.length < 2 → calculateEMA wBars3 2 = [])
      ∧ (2 ≤ wBars3.length →
          (calculateEMA wBars3 2).length = wBars3.length - 2 + 1
          ∧ nth (calculateEMA wBars3 2) 0 noPoint
              = ⟨(nth wBars3 (2 - 1) noCandle).time,
                 (∑ j in Finset.range 2, (nth wBars3 j noCandle).close) / ((2 : ℕ) : ℚ)⟩)
      ∧ ∀ _hi : 0 + 1 < (calculateEMA wBars3 2).length,
          (nth (calculateEMA wBars3 2) (0 + 1) noPoint).time
              = (nth wBars3 (2 + 0) noCandle).time
          ∧ (nth (calculateEMA wBars3 2) (0 + 1) noPoint).value
              = ((nth wBars3 (2 + 0) noCandle).close
                  - (nth (calculateEMA wBars3 2) 0 noPoint).value)
                  * (2 / (((2 : ℕ) : ℚ) + 1))
                + (nth (calculateEMA wBars3 2) 0 noPoint).value) :=
  ⟨by decide, ema_seed_recurrence_c5 wBars3 2 0 (by decide)⟩

theorem macdGo_histogram (m : ℚ) : ∀ (ds : List IndicatorData) (sig : ℚ) (p : MACDData),
    p ∈ macdGo m ds sig → p.histogram = p.macd - p.signal := by
  intro ds
  induction ds with
  | nil => intro sig p h; simp [macdGo] at h
  | cons d ds ih =>
    intro sig p h
    simp only [macdGo, List.mem_cons] at h
    rcases h with h | h
    · subst h; rfl
    · exact ih _ p h

/-- C7: every point emitted by `calculateMACD`, for any periods, has its
`histogram` field equal to the direct subtraction of its own `macd` and
`signal` fields. -/
theorem macd_histogram_c7 (candles : List CandleData)
    (fastPeriod slowPeriod signalPeriod : ℕ) (p : MACDData)
    (hp : p ∈ calculateMACD candles fastPeriod slowPeriod signalPeriod) :
    p.histogram = p.macd - p.signal := by
  simp only [calculateMACD] at hp
  split at hp
  · simp at hp
  · split at hp
    · simp at hp
    · rw [List.mem_cons] at hp
      rcases hp with h | h
      · subst h; rfl
      · exact macdGo_histogram _ _ _ p h

/-- Witness for C7 at two bars with periods 1, 1, 1. -/
theorem macd_histogram_c7_witness :
    nth (calculateMACD wBars2 1 1 1) 0 noMACD ∈ calculateMACD wBars2 1 1 1
    ∧ (nth (calculateMACD wBars2 1 1 1) 0 noMACD).histogram
        = (nth (calculateMACD wBars2 1 1 1) 0 noMACD).macd
          - (nth (calculateMACD wBars2 1 1 1) 0 noMACD).signal := by
  have hm : nth (calculateMACD wBars2 1 1 1) 0 noMACD ∈ calculateMACD wBars2 1 1 1 := by
    apply nth_mem
    decide
  exact ⟨hm, macd_histogram_c7 wBars2 1 1 1 _ hm⟩

theorem changesOf_pos : ∀ (l : List ℚ), List.Chain' (· < ·) l → ∀ x ∈ changesOf l, 0 < x := by
  intro l
  induction l with
  | nil => intro _ x hx; simp [changesOf] at hx
  | cons a t ih =>
    intro hc x hx
    cases t with
    | nil => simp [changesOf] at hx
    | cons b t2 =>
      rw [List.chain'_cons] at hc
      simp only [changesOf, List.mem_cons] at hx
      rcases hx with h | h
      · subst h; exact sub_pos.mpr hc.1
      · exact ih hc.2 x h

theorem lossesOf_zero (candles : List CandleData)
    (hmono : List.Chain' (· < ·) (closesOf candles)) :
    ∀ x ∈ lossesOf candles, x = 0 := by
  intro x hx
  simp only [lossesOf, List.mem_map] at hx
  obtain ⟨ch, hch, hxe⟩ := hx
  have hpos : 0 < ch := changesOf_pos _ hmono ch hch
  rw [← hxe, if_neg (by linarith)]

theorem rsiGo_zero_loss (period : ℕ) :
    ∀ (rest : List (ℚ × ℚ × ℤ)) (aG aL : ℚ), aL = 0 →
      (∀ t ∈ rest, t.2.1 = 0) →
      ∀ p ∈ rsiGo period rest aG aL, p.value = 100 - 100 / 101 := by
  intro rest
  induction rest with
  | nil => intro aG aL _ _ p h; simp [rsiGo] at h
  | cons t rest ih =>
    obtain ⟨g, l, tm⟩ := t
    intro aG aL haL hz p h
    have hl : l = 0 := hz (g, l, tm) (List.mem_cons_self _ _)
    subst haL
    subst hl
    have haL2 : ((0 : ℚ) * ((period : ℚ) - 1) + 0) / period = 0 := by simp
    simp only [rsiGo, List.mem_cons] at h
    rcases h with h | h
    · subst h
      show 100 - 100 / (1 + _) = 100 - 100 / 101
      rw [haL2]
      norm_num
    · refine ih _ _ haL2 ?_ p h
      intro t ht
      exact hz t (List.mem_cons_of_mem _ ht)

/-- C6: on a bar sequence of length at least `period + 1` with strictly
increasing closes, every value emitted by `calculateRSI` is exactly
`100 - 100/101` (the artificial `RS = 100` rule fires at every step),
and that value is not the literal 100. -/
theorem rsi_zero_loss_c6 (candles : List CandleData) (period : ℕ) (hp : 0 < period)
    (hlen : period + 1 ≤ candles.length)
    (hmono : List.Chain' (· < ·) (closesOf candles)) :
    (∀ p ∈ calculateRSI candles period, p.value = 100 - 100 / 101)
    ∧ (100 : ℚ) - 100 / 101 ≠ 100 := by
  constructor
  · intro p hmem
    have hnl : ¬ candles.length < period + 1 := not_lt.mpr hlen
    have hz : ∀ x ∈ lossesOf candles, x = 0 := lossesOf_zero candles hmono
    have hsum : ((lossesOf candles).take period).sum = 0 :=
      List.sum_eq_zero (fun x hx => hz x (List.take_subset _ _ hx))
    have havgL : ((lossesOf candles).take period).sum / (period : ℚ) = 0 := by
      rw [hsum, zero_div]
    simp only [calculateRSI, if_neg hnl, List.mem_cons] at hmem
    rcases hmem with h | h
    · subst h
      show 100 - 100 / (1 + _) = 100 - 100 / 101
      rw [havgL]
      norm_num
    · refine rsiGo_zero_loss period _ _ _ havgL ?_ p h
      intro t ht
      obtain ⟨g, l, tm⟩ := t
      have h2 := (List.of_mem_zip ht).2
      have h3 := (List.of_mem_zip h2).1
      exact hz l (List.drop_subset _ _ h3)
  · norm_num

/-- Witness for C6 at three bars with strictly increasing closes and
period 1. -/
theorem rsi_zero_loss_c6_witness :
    0 < 1 ∧ 1 + 1 ≤ wBars3.length ∧ List.Chain' (· < ·) (closesOf wBars3) ∧
    ((∀ p ∈ calculateRSI wBars3 1, p.value = 100 - 100 / 101)
      ∧ (100 : ℚ) - 100 / 101 ≠ 100) := by
  have hmono : List.Chain' (· < ·) (closesOf wBars3) := by
    norm_num [closesOf, wBars3, List.chain'_cons]
  exact ⟨by decide, by decide, hmono, rsi_zero_loss_c6 wBars3 1 (by decide) (by decide) hmono⟩

theorem vwapGo_length (f : ℚ → ℚ) : ∀ (cs : List CandleData) (sq : List ℚ) (tpv vol : ℚ),
    (vwapGo f cs sq tpv vol).length = cs.length := by
  intro cs
  induction cs with
  | nil => intro sq tpv vol; rfl
  | cons c cs ih => intro sq tpv vol; simp [vwapGo, ih]

theorem calculateVWAP_length (f : ℚ → ℚ) (candles : List CandleData) :
    (calculateVWAP f candles).length = candles.length := by
  by_cases h : candles.length = 0
  · simp [calculateVWAP, if_pos h, h]
  · simp [calculateVWAP, if_neg h, vwapGo_length]

theorem relVwap_zero (tpv vol : ℚ) (c : CandleData) (cs : List CandleData) :
    relVwap tpv vol (c :: cs) 0 = vwStep tpv vol c := by
  simp only [relVwap, cumVolume, cumTPV, vwStep, nth_cons_zero]

theorem relVwap_cons (tpv vol : ℚ) (c : CandleData) (cs : List CandleData) (i : ℕ) :
    relVwap tpv vol (c :: cs) (i + 1)
      = relVwap (tpv + typicalPrice c * c.volume) (vol + c.volume) cs i := by
  simp only [relVwap, cumVolume, cumTPV, nth_cons_succ, add_assoc]

theorem relVar_cons (s tpv vol : ℚ) (c : CandleData) (cs : List CandleData) (i : ℕ) :
    relVar s tpv vol (c :: cs) (i + 1)
      = relVar (s + (typicalPrice c - vwStep tpv vol c) ^ 2 * c.volume)
          (tpv + typicalPrice c * c.volume) (vol + c.volume) cs i := by
  simp only [relVar, cumVolume, cumTPV, frozenSqDevSum, add_assoc]

theorem vwapGo_nth (f : ℚ → ℚ) : ∀ (cs : List CandleData) (sq : List ℚ) (tpv vol : ℚ) (i : ℕ),
    i < cs.length →
    nth (vwapGo f cs sq tpv vol) i noVWAP =
      ⟨(nth cs i noCandle).time,
       relVwap tpv vol cs i,
       relVwap tpv vol cs i + f (relVar sq.sum tpv vol cs i),
       relVwap tpv vol cs i - f (relVar sq.sum tpv vol cs i),
       relVwap tpv vol cs i + 2 * f (relVar sq.sum tpv vol cs i),
       relVwap tpv vol cs i - 2 * f (relVar sq.sum tpv vol cs i)⟩ := by
  intro cs
  induction cs with
  | nil => intro sq tpv vol i h; simp at h
  | cons c cs ih =>
    intro sq tpv vol i h
    cases i with
    | zero =>
      simp only [vwapGo, nth_cons_zero, relVwap_zero, relVar, cumVolume, cumTPV,
        frozenSqDevSum, vwStep, List.sum_append, List.sum_cons, List.sum_nil, add_zero]
    | succ i =>
      have hcs : i < cs.length := by simpa using h
      simp only [vwapGo, nth_cons_succ]
      rw [ih _ _ _ i hcs, relVwap_cons, relVar_cons]
      simp only [nth_cons_succ, List.sum_append, List.sum_cons, List.sum_nil, add_zero,
        vwStep]

theorem calculateVWAP_nth (f : ℚ → ℚ) (candles : List CandleData) (i : ℕ)
    (hi : i < candles.length) :
    nth (calculateVWAP f candles) i noVWAP =
      ⟨(nth candles i noCandle).time,
       relVwap 0 0 candles i,
       relVwap 0 0 candles i + f (relVar 0 0 0 candles i),
       relVwap 0 0 candles i - f (relVar 0 0 0 candles i),
       relVwap 0 0 candles i + 2 * f (relVar 0 0 0 candles i),
       relVwap 0 0 candles i - 2 * f (relVar 0 0 0 candles i)⟩ := by
  have hne : ¬ candles.length = 0 := by omega
  simp only [calculateVWAP, if_neg hne]
  have := vwapGo_nth f candles [] 0 0 i hi
  simpa using this

theorem frozenSqDevSum_eq_sum : ∀ (cs : List CandleData) (tpv vol : ℚ) (i : ℕ),
    i < cs.length →
    frozenSqDevSum tpv vol cs i
      = ∑ j in Finset.range (i + 1),
          (typicalPrice (nth cs j noCandle) - relVwap tpv vol cs j) ^ 2
            * (nth cs j noCandle).volume := by
  intro cs
  induction cs with
  | nil => intro tpv vol i h; simp at h
  | cons c cs ih =>
    intro tpv vol i h
    cases i with
    | zero =>
      simp [frozenSqDevSum, relVwap_zero, nth_cons_zero]
    | succ i =>
      rw [Finset.sum_range_succ']
      simp only [frozenSqDevSum]
      rw [ih _ _ i (by simpa using h)]
      rw [add_comm]
      congr 1
      refine Finset.sum_congr rfl ?_
      intro j _
      rw [nth_cons_succ, relVwap_cons]

/-- C9: whenever the cumulative volume up to bar `i` is zero, the vwap
emitted at bar `i` is the typical price of that bar `(high+low+close)/3`. -/
theorem vwap_fallback_c9 (f : ℚ → ℚ) (candles : List CandleData) (i : ℕ)
    (hi : i < (calculateVWAP f candles).length)
    (hz : cumVolume candles i = 0) :
    (nth (calculateVWAP f candles) i noVWAP).vwap
      = typicalPrice (nth candles i noCandle) := by
  have hlen := calculateVWAP_length f candles
  have hi2 : i < candles.length := by omega
  rw [calculateVWAP_nth f candles i hi2]
  show relVwap 0 0 candles i = _
  rw [relVwap, hz]
  norm_num

/-- Witness for C9 at a single zero-volume bar. -/
theorem vwap_fallback_c9_witness :
    0 < (calculateVWAP idFn vwapZeroBars).length ∧ cumVolume vwapZeroBars 0 = 0 ∧
    (nth (calculateVWAP idFn vwapZeroBars) 0 noVWAP).vwap
      = typicalPrice (nth vwapZeroBars 0 noCandle) := by
  have h1 : 0 < (calculateVWAP idFn vwapZeroBars).length := by
    rw [calculateVWAP_length]
    norm_num [vwapZeroBars]
  have h2 : cumVolume vwapZeroBars 0 = 0 := by
    norm_num [vwapZeroBars, cumVolume]
  exact ⟨h1, h2, vwap_fallback_c9 idFn vwapZeroBars 0 h1 h2⟩

/-- C1 (amended): the standard deviation displayed at bar `i` (the gap
between `upperBand1` and `vwap`) is the square root of
`S_i / cumulativeVolume_i`, where `S_i` sums, over `j ≤ i`, the term
`(typicalPrice_j - vwap_j)² · volume_j` with `vwap_j` the vwap emitted at
bar `j` — each historical term stays frozen at the vwap that was current
when it was pushed, rather than being re-referenced to the current
`vwap_i`. -/
theorem vwap_frozen_stddev_c1 (f : ℚ → ℚ) (candles : List CandleData) (i : ℕ)
    (hi : i < (calculateVWAP f candles).length)
    (hv : 0 < cumVolume candles i) :
    (nth (calculateVWAP f candles) i noVWAP).upperBand1
      = (nth (calculateVWAP f candles) i noVWAP).vwap
        + f ((∑ j in Finset.range (i + 1),
              (typicalPrice (nth candles j noCandle)
                - (nth (calculateVWAP f candles) j noVWAP).vwap) ^ 2
                * (nth candles j noCandle).volume)
            / cumVolume candles i) := by
  have hlen := calculateVWAP_length f candles
  have hi2 : i < candles.length := by omega
  have hsum : (∑ j in Finset.range (i + 1),
        (typicalPrice (nth candles j noCandle)
          - (nth (calculateVWAP f candles) j noVWAP).vwap) ^ 2
          * (nth candles j noCandle).volume)
      = ∑ j in Finset.range (i + 1),
          (typicalPrice (nth candles j noCandle) - relVwap 0 0 candles j) ^ 2
            * (nth candles j noCandle).volume := by
    refine Finset.sum_congr rfl ?_
    intro j hj
    have hj2 : j < candles.length := by
      have := Finset.mem_range.mp hj
      omega
    rw [calculateVWAP_nth f candles j hj2]
  rw [hsum, ← frozenSqDevSum_eq_sum candles 0 0 i hi2,
    calculateVWAP_nth f candles i hi2]
  show relVwap 0 0 candles i + f (relVar 0 0 0 candles i) = _
  congr 2
  rw [relVar, if_pos (by simpa using hv), zero_add, zero_add]

/-- Counterexample to C1 as stated: with the identity as the square-root
stand-in, on two unit-volume bars with typical prices 3 and 6, the
displayed deviation gap at bar 1 is 9/8, while the reading of the spec — all
historical squared deviations re-referenced to the current `vwap_1` —
yields 9/4. -/
theorem vwap_frozen_stddev_c1_counterexample :
    (nth (calculateVWAP idFn vwapCexBars) 1 noVWAP).upperBand1
        - (nth (calculateVWAP idFn vwapCexBars) 1 noVWAP).vwap = 9 / 8
    ∧ idFn (claimSumSq vwapCexBars 1 / cumVolume vwapCexBars 1) = 9 / 4
    ∧ ((9 : ℚ) / 8) ≠ 9 / 4 := by
  refine ⟨?_, ?_, by norm_num⟩
  · norm_num [calculateVWAP, vwapGo, typicalPrice, vwapCexBars, idFn, nth,
      List.sum_append, List.sum_cons, List.sum_nil]
  · norm_num [claimSumSq, vwapAt, relVwap, cumVolume, cumTPV, typicalPrice,
      vwapCexBars, idFn, nth, Finset.sum_range_succ, Finset.sum_range_zero]

/-- Witness for the amended C1 on the same two concrete bars at index 1. -/
theorem vwap_frozen_stddev_c1_witness :
    1 < (calculateVWAP idFn vwapCexBars).length ∧ 0 < cumVolume vwapCexBars 1 ∧
    (nth (calculateVWAP idFn vwapCexBars) 1 noVWAP).upperBand1
      = (nth (calculateVWAP idFn vwapCexBars) 1 noVWAP).vwap
        + idFn ((∑ j in Finset.range (1 + 1),
              (typicalPrice (nth vwapCexBars j noCandle)
                - (nth (calculateVWAP idFn vwapCexBars) j noVWAP).vwap) ^ 2
                * (nth vwapCexBars j noCandle).volume)
            / cumVolume vwapCexBars 1) := by
  have h1 : 1 < (calculateVWAP idFn vwapCexBars).length := by
    rw [calculateVWAP_length]
    norm_num [vwapCexBars]
  have h2 : 0 < cumVolume vwapCexBars 1 := by
    norm_num [vwapCexBars, cumVolume]
  exact ⟨h1, h2, vwap_frozen_stddev_c1 idFn vwapCexBars 1 h1 h2⟩

theorem cvd_delta_code_eq (c : CandleData) :
    c.volume * (if 0 < c.high - c.low then (c.close - c.low) / (c.high - c.low) else 0.5)
      - c.volume * (1 - (if 0 < c.high - c.low then (c.close - c.low) / (c.high - c.low)
          else 0.5))
      = deltaOf c := by
  simp only [sub_pos, deltaOf, buyVolumeOf, sellVolumeOf, closePositionOf]

theorem cvdGo_length : ∀ (cs : List CandleData) (acc : ℚ),
    (cvdGo cs acc).length = cs.length := by
  intro cs
  induction cs with
  | nil => intro acc; rfl
  | cons c cs ih => intro acc; simp [cvdGo, ih]

theorem calculateCVD_length (candles : List CandleData) :
    (calculateCVD candles).length = candles.length := by
  by_cases h : candles.length = 0
  · simp [calculateCVD, if_pos h, h]
  · simp [calculateCVD, if_neg h, cvdGo_length]

theorem cvdGo_nth : ∀ (cs : List CandleData) (acc : ℚ) (i : ℕ), i < cs.length →
    nth (cvdGo cs acc) i noCVD
      = ⟨(nth cs i noCandle).time,
         acc + ∑ j in Finset.range (i + 1), deltaOf (nth cs j noCandle),
         deltaOf (nth cs i noCandle)⟩ := by
  intro cs
  induction cs with
  | nil => intro acc i h; simp at h
  | cons c cs ih =>
    intro acc i h
    cases i with
    | zero =>
      simp only [cvdGo, nth_cons_zero, zero_add, Finset.sum_range_one]
      rw [cvd_delta_code_eq]
    | succ i =>
      simp only [cvdGo, nth_cons_succ]
      rw [ih _ i (by simpa using h), cvd_delta_code_eq]
      congr 1
      simp only [Finset.sum_range_succ', nth_cons_succ, nth_cons_zero]
      ring

/-- C10: at every bar, the emitted `delta` is exactly
`buyVolume - sellVolume` for the close-position split, the split
conserves the volume of the bar exactly in rational arithmetic, and the
emitted `cvd` is the sum of the deltas of bars `0..i`. -/
theorem cvd_delta_c10 (candles : List CandleData) (i : ℕ)
    (hi : i < (calculateCVD candles).length) :
    (nth (calculateCVD candles) i noCVD).delta
        = buyVolumeOf (nth candles i noCandle) - sellVolumeOf (nth candles i noCandle)
    ∧ buyVolumeOf (nth candles i noCandle) + sellVolumeOf (nth candles i noCandle)
        = (nth candles i noCandle).volume
    ∧ (nth (calculateCVD candles) i noCVD).cvd
        = ∑ j in Finset.range (i + 1), deltaOf (nth candles j noCandle) := by
  have hlen := calculateCVD_length candles
  have hi2 : i < candles.length := by omega
  have hne : ¬ candles.length = 0 := by omega
  refine ⟨?_, ?_, ?_⟩
  · simp only [calculateCVD, if_neg hne]
    rw [cvdGo_nth candles 0 i hi2]
    rfl
  · simp only [buyVolumeOf, sellVolumeOf]
    ring
  · simp only [calculateCVD, if_neg hne]
    rw [cvdGo_nth candles 0 i hi2]
    show 0 + _ = _
    rw [zero_add]

/-- Witness for C10 at two concrete bars, index 1. -/
theorem cvd_delta_c10_witness :
    1 < (calculateCVD wBars2).length ∧
    ((nth (calculateCVD wBars2) 1 noCVD).delta
        = buyVolumeOf (nth wBars2 1 noCandle) - sellVolumeOf (nth wBars2 1 noCandle)
      ∧ buyVolumeOf (nth wBars2 1 noCandle) + sellVolumeOf (nth wBars2 1 noCandle)
          = (nth wBars2 1 noCandle).volume
      ∧ (nth (calculateCVD wBars2) 1 noCVD).cvd
          = ∑ j in Finset.range (1 + 1), deltaOf (nth wBars2 j noCandle)) := by
  have h1 : 1 < (calculateCVD wBars2).length := by
    rw [calculateCVD_length]
    norm_num [wBars2]
  exact ⟨h1, cvd_delta_c10 wBars2 1 h1⟩

theorem mem_rangeList : ∀ (n s x : ℕ), x ∈ rangeList s n → s ≤ x ∧ x < s + n := by
  intro n
  induction n with
  | zero => intro s x h; simp [rangeList] at h
  | succ n ih =>
    intro s x h
    simp only [rangeList, List.mem_cons] at h
    rcases h with he | h
    · omega
    · have := ih (s + 1) x h
      omega

theorem footprintGo_mem (rand : ℕ → ℚ) (levels : ℕ) :
    ∀ (cs : List CandleData) (k : ℕ) (fc : FootprintCandle),
      fc ∈ footprintGo rand levels cs k →
      ∃ c k2, c ∈ cs ∧ ¬ c.high - c.low = 0 ∧ fc = footprintBar rand levels c k2 := by
  intro cs
  induction cs with
  | nil => intro k fc h; simp [footprintGo] at h
  | cons c cs ih =>
    intro k fc h
    simp only [footprintGo] at h
    by_cases hr : c.high - c.low = 0
    · rw [if_pos hr] at h
      obtain ⟨c2, k2, hmem, hne, he⟩ := ih k fc h
      exact ⟨c2, k2, List.mem_cons_of_mem _ hmem, hne, he⟩
    · rw [if_neg hr] at h
      rcases List.mem_cons.mp h with he | h2
      · exact ⟨c, k, List.mem_cons_self _ _, hr, he⟩
      · obtain ⟨c2, k2, hmem, hne, he⟩ := ih _ fc h2
        exact ⟨c2, k2, List.mem_cons_of_mem _ hmem, hne, he⟩

theorem footprintBar_levels (rand : ℕ → ℚ) (levels : ℕ) (c : CandleData) (k : ℕ) :
    (footprintBar rand levels c k).levels
      = (rangeList 0 levels).map (fun i => footprintBin c levels i (rand (k + i))) := rfl

theorem footprintBar_levels_nth (rand : ℕ → ℚ) (levels : ℕ) (c : CandleData) (k i : ℕ)
    (hi : i < levels) :
    nth (footprintBar rand levels c k).levels i noLevel
      = footprintBin c levels i (rand (k + i)) := by
  rw [footprintBar_levels, nth_map_rangeList _ _ levels 0 i hi]
  simp

theorem binPositionFactor_bounds (c : CandleData) (levels i : ℕ) (hi : i < levels) :
    0 ≤ binPositionFactor c levels i ∧ binPositionFactor c levels i ≤ 1 := by
  have h0 : 0 < levels := by omega
  have hNQ : (0 : ℚ) < (levels : ℚ) := by exact_mod_cast h0
  unfold binPositionFactor levelPriceOf
  by_cases hr : c.high - c.low = 0
  · rw [hr]
    norm_num
  · have hpe : (c.low + ((i : ℚ) + 0.5) * ((c.high - c.low) / levels) - c.low)
        / (c.high - c.low) = ((i : ℚ) + 0.5) / levels := by
      field_simp
      ring
    rw [hpe]
    constructor
    · positivity
    · rw [div_le_one hNQ]
      have : (i : ℚ) + 1 ≤ levels := by exact_mod_cast hi
      linarith

theorem binShares_le (c : CandleData) (levels i : ℕ) (hi : i < levels) :
    binAskShare c levels i ≤ 3 * binBidShare c levels i
    ∧ binBidShare c levels i ≤ 3 * binAskShare c levels i := by
  obtain ⟨hp0, hp1⟩ := binPositionFactor_bounds c levels i hi
  unfold binAskShare binBidShare
  split_ifs <;> constructor <;> linarith

theorem footprintBin_neutral (c : CandleData) (levels i : ℕ) (r : ℚ)
    (hv : 0 ≤ c.volume) (hr : 0 ≤ r) (hi : i < levels) :
    (footprintBin c levels i r).imbalance = Imbalance.neutral := by
  obtain ⟨hs1, hs2⟩ := binShares_le c levels i hi
  have hbase : 0 ≤ binBaseVolume c levels i := by
    have hvN : 0 ≤ c.volume / (levels : ℚ) := div_nonneg hv (by positivity)
    unfold binBaseVolume
    split
    · exact mul_nonneg hvN (by norm_num)
    · exact mul_nonneg hvN (by norm_num)
  have hnoise : (0 : ℚ) ≤ 0.9 + r * 0.2 := by
    have := mul_nonneg hr (by norm_num : (0 : ℚ) ≤ 0.2)
    linarith
  have hbn : 0 ≤ binBaseVolume c levels i * (0.9 + r * 0.2) := mul_nonneg hbase hnoise
  have h1 : ¬ (binBaseVolume c levels i * binBidShare c levels i * (0.9 + r * 0.2) * 3
      < binBaseVolume c levels i * binAskShare c levels i * (0.9 + r * 0.2)) := by
    rw [not_lt]
    nlinarith [mul_nonneg hbn (by linarith :
      (0 : ℚ) ≤ 3 * binBidShare c levels i - binAskShare c levels i)]
  have h2 : ¬ (binBaseVolume c levels i * binAskShare c levels i * (0.9 + r * 0.2) * 3
      < binBaseVolume c levels i * binBidShare c levels i * (0.9 + r * 0.2)) := by
    rw [not_lt]
    nlinarith [mul_nonneg hbn (by linarith :
      (0 : ℚ) ≤ 3 * binAskShare c levels i - binBidShare c levels i)]
  show (if _ < _ then Imbalance.ask else if _ < _ then Imbalance.bid
    else Imbalance.neutral) = Imbalance.neutral
  rw [if_neg h1, if_neg h2]

/-- C3 (implicit invariant): for every bar sequence with non-negative
volumes and every random stream satisfying the `Math.random` contract,
every emitted footprint level is classified `neutral`: the shared noise
factor cancels from the ask/bid comparison and the position-dependent
shares never reach the 3x imbalance threshold. -/
theorem footprint_imbalance_c3 (rand : ℕ → ℚ) (candles : List CandleData)
    (levelsPerCandle : ℕ)
    (hvol : ∀ c ∈ candles, 0 ≤ c.volume)
    (hrand : ∀ k, 0 ≤ rand k ∧ rand k < 1) :
    ∀ fc ∈ calculateFootprint rand candles levelsPerCandle,
      ∀ lv ∈ fc.levels, lv.imbalance = Imbalance.neutral := by
  intro fc hfc lv hlv
  obtain ⟨c, k2, hc, hne, he⟩ := footprintGo_mem rand levelsPerCandle candles 0 fc hfc
  subst he
  rw [footprintBar_levels] at hlv
  obtain ⟨i, hmemi, heq⟩ := List.mem_map.mp hlv
  have hib := mem_rangeList _ _ _ hmemi
  rw [← heq]
  exact footprintBin_neutral c levelsPerCandle i _ (hvol c hc) ((hrand _).1) (by omega)

/-- Witness for C3 at one concrete bullish bar, two levels per bar, and
the constant stream 1/2. -/
theorem footprint_imbalance_c3_witness :
    (∀ c ∈ [cexCandle], 0 ≤ c.volume)
    ∧ (∀ k, 0 ≤ cexRand k ∧ cexRand k < 1)
    ∧ ∀ fc ∈ calculateFootprint cexRand [cexCandle] 2,
        ∀ lv ∈ fc.levels, lv.imbalance = Imbalance.neutral := by
  have h1 : ∀ c ∈ [cexCandle], 0 ≤ c.volume := by
    intro c hc
    simp only [List.mem_singleton] at hc
    subst hc
    norm_num [cexCandle]
  have h2 : ∀ k, 0 ≤ cexRand k ∧ cexRand k < 1 := by
    intro k
    unfold cexRand
    split <;> norm_num
  exact ⟨h1, h2, footprint_imbalance_c3 cexRand [cexCandle] 2 h1 h2⟩

/-- C2 (amended): every bar emitted by `calculateFootprint` comes from an
input bar with nonzero range, and each of its bins consumes a single
draw `rand (k+i)`; the one noise factor `0.9 + rand (k+i) * 0.2` obtained
from that draw multiplies both the bid volume and the ask volume of the
bin — the two sides are not scaled by independent draws. -/
theorem footprint_shared_noise_c2 (rand : ℕ → ℚ) (candles : List CandleData)
    (levelsPerCandle : ℕ) (fc : FootprintCandle)
    (hfc : fc ∈ calculateFootprint rand candles levelsPerCandle) :
    ∃ c k, c ∈ candles ∧ ¬ c.high - c.low = 0
      ∧ fc = footprintBar rand levelsPerCandle c k
      ∧ ∀ i, i < levelsPerCandle →
          (nth fc.levels i noLevel).bidVolume
            = binBaseVolume c levelsPerCandle i * binBidShare c levelsPerCandle i
              * (0.9 + rand (k + i) * 0.2)
          ∧ (nth fc.levels i noLevel).askVolume
            = binBaseVolume c levelsPerCandle i * binAskShare c levelsPerCandle i
              * (0.9 + rand (k + i) * 0.2) := by
  obtain ⟨c, k, hc, hne, he⟩ := footprintGo_mem rand levelsPerCandle candles 0 fc hfc
  refine ⟨c, k, hc, hne, he, ?_⟩
  intro i hi
  rw [he, footprintBar_levels_nth rand levelsPerCandle c k i hi]
  exact ⟨rfl, rfl⟩

/-- Counterexample to C2 as stated: on a concrete bar and stream whose
first two draws differ, the output of the reference computation (one
shared draw per bin) differs from the output of the description in the spec
(independent draws for the bid and the ask side of each bin). -/
theorem footprint_shared_noise_c2_counterexample :
    calculateFootprint cexRand [cexCandle] 1 ≠ calculateFootprintIndep cexRand [cexCandle] 1 := by
  intro h
  have h2 := congrArg (fun l => (nth (nth l 0 noFootprint).levels 0 noLevel).askVolume) h
  norm_num [calculateFootprint, calculateFootprintIndep, footprintGo, footprintGoIndep,
    footprintBar, footprintBarIndep, footprintBin, footprintBinIndep, binBaseVolume,
    binBidShare, binAskShare, binPositionFactor, levelPriceOf, rangeList, nth,
    cexRand, cexCandle, min_def, max_def] at h2

/-- Witness for the amended C2 at the concrete bar and stream, one level
per bar. -/
theorem footprint_shared_noise_c2_witness :
    nth (calculateFootprint cexRand [cexCandle] 1) 0 noFootprint
        ∈ calculateFootprint cexRand [cexCandle] 1
    ∧ ∃ c k, c ∈ [cexCandle] ∧ ¬ c.high - c.low = 0
        ∧ nth (calculateFootprint cexRand [cexCandle] 1) 0 noFootprint
            = footprintBar cexRand 1 c k
        ∧ ∀ i, i < 1 →
            (nth (nth (calculateFootprint cexRand [cexCandle] 1) 0 noFootprint).levels i
                noLevel).bidVolume
              = binBaseVolume c 1 i * binBidShare c 1 i * (0.9 + cexRand (k + i) * 0.2)
            ∧ (nth (nth (calculateFootprint cexRand [cexCandle] 1) 0 noFootprint).levels i
                noLevel).askVolume
              = binBaseVolume c 1 i * binAskShare c 1 i * (0.9 + cexRand (k + i) * 0.2) := by
  have hm : nth (calculateFootprint cexRand [cexCandle] 1) 0 noFootprint
      ∈ calculateFootprint cexRand [cexCandle] 1 := by
    apply nth_mem
    norm_num [calculateFootprint, footprintGo, cexCandle]
  exact ⟨hm, footprint_shared_noise_c2 cexRand [cexCandle] 1 _ hm⟩
